import Mathlib

/-!
Shallow embedding of the ingestion pipeline in `BlobIndexTrigger/__init__.py`
(repository `Ai-Search`): text normalization and chunking (`TextSplitter`),
embedding generation with retry (`OpenAIEmbeddings.create_embeddings` under a
`tenacity` retry decorator), id / sourcepage derivation, and the orchestrator
`process_file_and_update_index`.

Python strings are modelled as Lean `String` (manipulated through their
underlying `List Char`), bytes as `List Nat`, remote services as explicit
oracle parameters, and raised exceptions as `Except`.
-/

set_option autoImplicit false

namespace AiSearch

/-- ASCII model of Python's regex class `\s` (and of the whitespace set used
by `str.split()` / `str.strip()`): space, tab, newline, carriage return,
vertical tab, form feed. -/
def isWS (c : Char) : Bool :=
  c == ' ' || c == '\t' || c == '\n' || c == '\r' || c == '\x0b' || c == '\x0c'

/-- The sentence-ending punctuation of the lookbehind in
`re.split(r'(?<=[.!?])\s+', text)`. -/
def isPunct (c : Char) : Bool :=
  c == '.' || c == '!' || c == '?'

/-- `re.sub(r'\s+', ' ', text)`: each maximal whitespace run is replaced by a
single space.  The flag records whether the previous character was part of a
whitespace run whose single replacement space has already been emitted. -/
def subWSAux : List Char → Bool → List Char
  | [], _ => []
  | c :: cs, inRun =>
    if isWS c then
      if inRun then subWSAux cs true else ' ' :: subWSAux cs true
    else c :: subWSAux cs false

/-- `re.sub(r'\s+', ' ', text)` on a character list. -/
def subWS (l : List Char) : List Char := subWSAux l false

/-- Remove trailing whitespace characters (the right half of `str.strip()`). -/
def dropTrailingWS : List Char → List Char
  | [] => []
  | c :: cs =>
    let r := dropTrailingWS cs
    if r.isEmpty && isWS c then [] else c :: r

/-- `str.strip()` on a character list: drop leading and trailing whitespace. -/
def stripWS (l : List Char) : List Char :=
  dropTrailingWS (l.dropWhile (fun c => isWS c))

/-- `str.strip()` on a string. -/
def pyStrip (s : String) : String := ⟨stripWS s.data⟩

/-- The cleaning step of `TextSplitter.split_text`:
`re.sub(r'\s+', ' ', text).strip()`. -/
def normalizeChars (l : List Char) : List Char := stripWS (subWS l)

/-- Does the accumulated (reversed) current piece end in `[.!?]`?  The head of
the reversed accumulator is the last character consumed into the piece, i.e.
the character the regex lookbehind `(?<=[.!?])` inspects. -/
def lastIsPunct : List Char → Bool
  | [] => false
  | c :: _ => isPunct c

/-- `re.split(r'(?<=[.!?])\s+', text)`: split at maximal whitespace runs that
immediately follow a sentence-ending punctuation character.  `cur` is the
current piece accumulated in reverse; `inDelim` is true while consuming the
remainder of a whitespace run that matched the pattern. -/
def reSplitAux : List Char → Bool → List Char → List (List Char)
  | cur, _, [] => [cur.reverse]
  | cur, inDelim, c :: cs =>
    if isWS c then
      if inDelim then reSplitAux cur true cs
      else if lastIsPunct cur then cur.reverse :: reSplitAux [] true cs
      else reSplitAux (c :: cur) false cs
    else reSplitAux (c :: cur) false cs

/-- `re.split(r'(?<=[.!?])\s+', text)` on a character list. -/
def sentencesOf (l : List Char) : List (List Char) := reSplitAux [] false l

/-- `str.split()` (no argument): the list of maximal non-whitespace runs, in
order; `cur` is the current word accumulated in reverse. -/
def wordsAux : List Char → List Char → List (List Char)
  | cur, [] => if cur.isEmpty then [] else [cur.reverse]
  | cur, c :: cs =>
    if isWS c then
      if cur.isEmpty then wordsAux [] cs else cur.reverse :: wordsAux [] cs
    else wordsAux (c :: cur) cs

/-- `text.split()` on a character list. -/
def wordsOf (l : List Char) : List (List Char) := wordsAux [] l

/-- `len(text.split())` — the word-count token estimate used by both the
chunker and the embedding truncation check. -/
def wordCount (l : List Char) : Nat := (wordsOf l).length

/-- `' '.join(pieces)` on character lists. -/
def joinSp : List (List Char) → List Char
  | [] => []
  | [p] => p
  | p :: q :: ps => p ++ ' ' :: joinSp (q :: ps)

/-- One chunk produced by `TextSplitter.split_text` (Python class
`SplitPage`): the joined text and the section counter value it was emitted
with. -/
structure SplitPage where
  text : String
  page_num : Nat
deriving DecidableEq

/-- The sentence-accumulation loop of `TextSplitter.split_text`.  State:
remaining sentences, accumulated sentences of the current section (in order),
`current_length` (sum of word counts), and `section_number`.  A section is
closed before adding a sentence exactly when the budget would be exceeded and
the accumulator is non-empty; the final non-empty accumulator is closed after
the loop. -/
def chunkLoop (maxT : Nat) : List (List Char) → List (List Char) → Nat → Nat → List SplitPage
  | [], cur, _, num => if cur.isEmpty then [] else [⟨⟨joinSp cur⟩, num⟩]
  | s :: rest, cur, curLen, num =>
    let slen := wordCount s
    if maxT < curLen + slen ∧ cur ≠ [] then
      ⟨⟨joinSp cur⟩, num⟩ :: chunkLoop maxT rest [s] slen (num + 1)
    else
      chunkLoop maxT rest (cur ++ [s]) (curLen + slen) num

/-- `TextSplitter.split_text(text)`: clean the text, split into sentences,
then greedily accumulate sentences into token-bounded sections.
`maxT` is the `max_tokens` field of `TextSplitter` (default 2000). -/
def split_text (maxT : Nat) (text : String) : List SplitPage :=
  chunkLoop maxT (sentencesOf (normalizeChars text.data)) [] 0 0

/-! ### Decimal formatting (Python `str(i)` / f-string interpolation) -/

/-- Little-endian decimal digits of `n`, with explicit fuel (`fuel ≥ n`
suffices). -/
def decDigitsAux : Nat → Nat → List Nat
  | 0, _ => []
  | fuel + 1, n => if n = 0 then [] else n % 10 :: decDigitsAux fuel (n / 10)

/-- The character for decimal digit `d` (`'0'` through `'9'`). -/
def digitCharOf (d : Nat) : Char := Char.ofNat (48 + d)

/-- Python's decimal rendering of a non-negative integer, as produced by
f-string interpolation such as `f"-page-{i}"` and `f"#page={page+1}"`. -/
def decToString (n : Nat) : String :=
  if n = 0 then "0" else ⟨((decDigitsAux n n).reverse.map digitCharOf)⟩

/-! ### Path helpers (`os.path.basename`, `os.path.splitext`) -/

/-- `os.path.basename` (posix): the part of the path after the last `'/'`. -/
def basenameChars (l : List Char) : List Char :=
  (l.reverse.takeWhile (fun c => c ≠ '/')).reverse

/-- `os.path.basename` on a string. -/
def pyBasename (s : String) : String := ⟨basenameChars s.data⟩

/-- The extension component of `os.path.splitext` (posix): the suffix of the
basename starting at its last dot, provided some earlier character of the
basename is not a dot (leading dots of the basename never start an
extension). -/
def splitextExt (s : String) : String :=
  let base := basenameChars s.data
  let rev := base.reverse
  let afterRev := rev.takeWhile (fun c => c ≠ '.')
  match rev.dropWhile (fun c => c ≠ '.') with
  | [] => ""
  | _ :: beforeRev =>
    if beforeRev.any (fun c => c ≠ '.') then ⟨(afterRev ++ ['.']).reverse⟩ else ""

/-- ASCII model of Python `str.lower()`. -/
def lowerAscii (s : String) : String :=
  ⟨s.data.map (fun c => if 'A' ≤ c ∧ c ≤ 'Z' then Char.ofNat (c.toNat + 32) else c)⟩

/-- `sourcepage_from_file_page(filename, page)`: for a `.pdf` extension
(case-insensitive) the basename with a 1-based `#page=` anchor, otherwise
just the basename. -/
def sourcepage_from_file_page (filename : String) (page : Nat) : String :=
  if lowerAscii (splitextExt filename) = ".pdf" then
    pyBasename filename ++ "#page=" ++ decToString (page + 1)
  else
    pyBasename filename

/-! ### `File.filename_to_id` -/

/-- `File.filename_to_id`: `self.name.replace('/', '_').replace('.', '_')`.
Replacing a single-character substring everywhere is a character map. -/
def filename_to_id (name : String) : String :=
  ⟨(name.data.map (fun c => if c = '/' then '_' else c)).map
      (fun c => if c = '.' then '_' else c)⟩

/-! ### Embedding generation with retry

The remote service `client.embeddings.create` is modelled as an oracle
`svc : Nat → String → Except E A` giving the outcome of the `n`-th remote
call of the run (`n` counts all calls, across retry attempts) on the
submitted (possibly truncated) text.  `A` abstracts the returned float
vector, whose numeric content the ingestion code never inspects. -/

/-- The truncation step of `create_embeddings`: if the word-count token
estimate exceeds `max_tokens` (8000), keep only the first `max_tokens`
words, rejoined with single spaces. -/
def truncateWords (maxTok : Nat) (s : String) : String :=
  if maxTok < wordCount s.data then ⟨joinSp ((wordsOf s.data).take maxTok)⟩ else s

/-- One un-retried execution of the body of
`OpenAIEmbeddings.create_embeddings`: embed each text in order, one remote
call per text, stopping at (and re-raising) the first failure.  Returns the
result together with the next unused call index. -/
def ceOnce {E A : Type} (svc : Nat → String → Except E A) (maxTok : Nat) :
    Nat → List String → Except E (List A) × Nat
  | off, [] => (Except.ok [], off)
  | off, t :: ts =>
    match svc off (truncateWords maxTok t) with
    | Except.error e => (Except.error e, off + 1)
    | Except.ok v =>
      match ceOnce svc maxTok (off + 1) ts with
      | (Except.ok vs, off2) => (Except.ok (v :: vs), off2)
      | (Except.error e, off2) => (Except.error e, off2)

/-- The `tenacity` `@retry(stop=stop_after_attempt(3), ...)` wrapper around
`create_embeddings`: re-run the whole batch on failure, up to `retries + 1`
attempts in total, reporting the last attempt's error.  Returns the result,
the next unused call index, and the number of attempts made. -/
def ceRetryAux {E A : Type} (svc : Nat → String → Except E A) (maxTok : Nat)
    (ts : List String) : Nat → Nat → Except E (List A) × Nat × Nat
  | off, 0 =>
    match ceOnce svc maxTok off ts with
    | (r, off2) => (r, off2, 1)
  | off, retries + 1 =>
    match ceOnce svc maxTok off ts with
    | (Except.ok v, off2) => (Except.ok v, off2, 1)
    | (Except.error _, off2) =>
      match ceRetryAux svc maxTok ts off2 retries with
      | (r, off3, a) => (r, off3, a + 1)

/-- `OpenAIEmbeddings.create_embeddings` as called by the pipeline:
`max_tokens = 8000`, and the `tenacity` decorator allows 3 attempts
(`stop_after_attempt(3)`). -/
def create_embeddings {E A : Type} (svc : Nat → String → Except E A)
    (ts : List String) : Except E (List A) × Nat × Nat :=
  ceRetryAux svc 8000 ts 0 2

/-- Modelled from the spec: the wait computed by the `tenacity`
`wait_exponential(multiplier=1, min=4, max=10)` strategy after the `k`-th
failed attempt (the `tenacity` library itself is not part of the
repository): exponential backoff starting at 4 seconds and capped at 10
seconds. -/
def tenacityWait (k : Nat) : Nat := max 4 (min (1 * 2 ^ k) 10)

/-- Per-section retry reading of the retry claim, written from the spec's
words ("up to 3 attempts per section") for comparison with the code's
whole-batch retry: each section's remote call is retried individually up to
`attempts` times against the same call stream, and a later section is
reached whenever every earlier section succeeded within its own budget. -/
def ceSectionRetry {E A : Type} (svc : Nat → String → Except E A) (maxTok : Nat)
    (t : String) : Nat → Nat → Except E A × Nat
  | off, 0 =>
    match svc off (truncateWords maxTok t) with
    | r => (r, off + 1)
  | off, retries + 1 =>
    match svc off (truncateWords maxTok t) with
    | Except.ok v => (Except.ok v, off + 1)
    | Except.error _ => ceSectionRetry svc maxTok t (off + 1) retries

/-- Per-section retry reading of the whole embedding stage (spec words, not
the code): sections in order, each with its own 3-attempt budget. -/
def cePerSection {E A : Type} (svc : Nat → String → Except E A) (maxTok : Nat) :
    Nat → List String → Except E (List A) × Nat
  | off, [] => (Except.ok [], off)
  | off, t :: ts =>
    match ceSectionRetry svc maxTok t off 2 with
    | (Except.error e, off2) => (Except.error e, off2)
    | (Except.ok v, off2) =>
      match cePerSection svc maxTok off2 ts with
      | (Except.ok vs, off3) => (Except.ok (v :: vs), off3)
      | (Except.error e, off3) => (Except.error e, off3)

/-! ### Content extraction -/

/-- The Python `File` wrapper handed to `TextSplitter.extract_text`. -/
structure File where
  name : String
  content : List Nat
  content_type : String

/-- Suffix test on character lists (Python `str.endswith`). -/
def endsWithChars (suffix l : List Char) : Bool :=
  (suffix.reverse).isPrefixOf l.reverse

/-- The PDF dispatch test of `TextSplitter.extract_text`:
`file.content_type.lower() == 'application/pdf' or file.name.lower().endswith('.pdf')`. -/
def isPdfFile (f : File) : Bool :=
  lowerAscii f.content_type == "application/pdf" ||
    endsWithChars ".pdf".data (lowerAscii f.name).data

/-- `TextSplitter.extract_text`.  The external decoders are parameters:
`pdfX` models the `PyPDF2.PdfReader` page loop (pages joined by blank
lines, before the final `strip()`), failing when the byte stream cannot be
parsed; `utf8` models `bytes.decode('utf-8')`, `none` meaning
`UnicodeDecodeError`; `latin1` models the never-failing
`bytes.decode('latin-1')` fallback.  The code strips the decoded text. -/
def extract_text {E : Type} (pdfX : List Nat → Except E String)
    (utf8 : List Nat → Option String) (latin1 : List Nat → String)
    (f : File) : Except E String :=
  if isPdfFile f then
    (pdfX f.content).map pyStrip
  else
    match utf8 f.content with
    | some t => Except.ok (pyStrip t)
    | none => Except.ok (pyStrip (latin1 f.content))

/-! ### Document assembly and the orchestrator -/

/-- The dict uploaded to the search index, one per (section, embedding)
pair. -/
structure IndexDocument (A : Type) where
  id : String
  content : String
  embedding : A
  title : String
  category : Option String
  sourcefile : String
  sourcepage : String
  urls : List String
  storageUrl : String
deriving DecidableEq

/-- A Python return value of the orchestrator (`None`, or an integer had it
returned a count). -/
inductive PyValue where
  | none
  | int (n : Int)
deriving DecidableEq

instance exceptDecEq {E A : Type} [DecidableEq E] [DecidableEq A] :
    DecidableEq (Except E A) := fun x y =>
  match x, y with
  | Except.ok a, Except.ok b =>
    if h : a = b then isTrue (by rw [h]) else isFalse (by intro hh; cases hh; exact h rfl)
  | Except.ok _, Except.error _ => isFalse (by intro hh; cases hh)
  | Except.error _, Except.ok _ => isFalse (by intro hh; cases hh)
  | Except.error a, Except.error b =>
    if h : a = b then isTrue (by rw [h]) else isFalse (by intro hh; cases hh; exact h rfl)

/-- Observable outcome of one `process_file_and_update_index` run: the
returned value or propagated exception, the extracted text and the split
pages when those stages were reached, the number of embedding-stage attempts
(`tenacity`), the number of remote embedding calls consumed, and the batches
passed to `search_client.upload_documents`. -/
structure RunOutcome (E A : Type) where
  result : Except E PyValue
  extractedText : Option String
  sections : Option (List SplitPage)
  embedAttempts : Nat
  serviceCalls : Nat
  uploads : List (List (IndexDocument A))
deriving DecidableEq

/-- One document of the uploaded batch, as assembled in
`process_file_and_update_index` (`i` is the 0-based position produced by
`enumerate`; the `Section` wrapper contributes `title = basename(name)`,
`category = None`, `urls = []`). -/
def mkDoc {A : Type} (name account : String) (i : Nat) (sp : SplitPage)
    (emb : A) : IndexDocument A :=
  { id := filename_to_id name ++ "-page-" ++ decToString i
    content := sp.text
    embedding := emb
    title := pyBasename name
    category := Option.none
    sourcefile := name
    sourcepage := sourcepage_from_file_page name sp.page_num
    urls := []
    storageUrl :=
      "https://" ++ account ++ ".blob.core.windows.net/evidencefiles/" ++ name }

/-- The `documents` list comprehension:
`for i, (section, embedding) in enumerate(zip(sections, embeddings))`. -/
def mkDocs {A : Type} (name account : String) (sps : List SplitPage)
    (embs : List A) : List (IndexDocument A) :=
  (sps.zip embs).enum.map (fun p => mkDoc name account p.1 p.2.1 p.2.2)

/-- `process_file_and_update_index(blob_content, content_type, file_name,
search_info)`.  External collaborators are parameters: the three decoders of
`extract_text` and the remote embedding service `svc`; `account` is the
`AZURE_STORAGE_ACCOUNT_NAME` setting.  The upload itself is recorded in
`uploads` (its remote outcome is outside the claims).  Every successful
return of the Python function is a bare `return`, i.e. `None`. -/
def process_file_and_update_index {E A : Type} (pdfX : List Nat → Except E String)
    (utf8 : List Nat → Option String) (latin1 : List Nat → String)
    (svc : Nat → String → Except E A) (account : String)
    (blob_content : List Nat) (content_type : String) (file_name : String) :
    RunOutcome E A :=
  if blob_content.isEmpty then
    { result := Except.ok PyValue.none, extractedText := Option.none,
      sections := Option.none, embedAttempts := 0, serviceCalls := 0, uploads := [] }
  else
    match extract_text pdfX utf8 latin1 ⟨file_name, blob_content, content_type⟩ with
    | Except.error e =>
      { result := Except.error e, extractedText := Option.none,
        sections := Option.none, embedAttempts := 0, serviceCalls := 0, uploads := [] }
    | Except.ok text =>
      if text = "" then
        { result := Except.ok PyValue.none, extractedText := some text,
          sections := Option.none, embedAttempts := 0, serviceCalls := 0, uploads := [] }
      else
        let sps := split_text 2000 text
        match create_embeddings svc (sps.map (fun sp => sp.text)) with
        | (Except.error e, calls, att) =>
          { result := Except.error e, extractedText := some text,
            sections := some sps, embedAttempts := att, serviceCalls := calls,
            uploads := [] }
        | (Except.ok embs, calls, att) =>
          { result := Except.ok PyValue.none, extractedText := some text,
            sections := some sps, embedAttempts := att, serviceCalls := calls,
            uploads := [mkDocs file_name account sps embs] }

/-! ## Lemmas: decimal rendering is injective -/

/-- Value of a little-endian digit list. -/
def fromDec (ds : List Nat) : Nat := ds.foldr (fun d acc => d + 10 * acc) 0

/-- Decimal parsing, inverse to `decToString` on its range. -/
def parseNat (s : String) : Nat :=
  fromDec ((s.data.map (fun c => c.toNat - 48)).reverse)

theorem fromDec_decDigitsAux : ∀ fuel n, n ≤ fuel → fromDec (decDigitsAux fuel n) = n := by
  intro fuel
  induction fuel with
  | zero => intro n hn; interval_cases n; rfl
  | succ f ih =>
    intro n hn
    by_cases h0 : n = 0
    · subst h0; simp [decDigitsAux, fromDec]
    · have hdiv : n / 10 ≤ f := by
        have : n / 10 < n := Nat.div_lt_self (Nat.pos_of_ne_zero h0) (by norm_num)
        omega
      simp only [decDigitsAux, h0, if_false, fromDec, List.foldr_cons]
      have := ih (n / 10) hdiv
      simp only [fromDec] at this
      rw [this]
      omega

theorem decDigitsAux_lt : ∀ fuel n d, d ∈ decDigitsAux fuel n → d < 10 := by
  intro fuel
  induction fuel with
  | zero => intro n d hd; simp [decDigitsAux] at hd
  | succ f ih =>
    intro n d hd
    by_cases h0 : n = 0
    · subst h0; simp [decDigitsAux] at hd
    · simp only [decDigitsAux, h0, if_false, List.mem_cons] at hd
      rcases hd with h | h
      · subst h; exact Nat.mod_lt _ (by norm_num)
      · exact ih _ _ h

theorem digitCharOf_roundtrip : ∀ d, d < 10 → (digitCharOf d).toNat - 48 = d := by decide

theorem parseNat_decToString (n : Nat) : parseNat (decToString n) = n := by
  by_cases h0 : n = 0
  · subst h0; decide
  · simp only [decToString, h0, if_false, parseNat]
    show fromDec ((((decDigitsAux n n).reverse.map digitCharOf).map
        (fun c => c.toNat - 48)).reverse) = n
    rw [List.map_map, List.map_reverse, List.reverse_reverse]
    have hmap : (decDigitsAux n n).map ((fun c => c.toNat - 48) ∘ digitCharOf)
        = (decDigitsAux n n).map id := by
      apply List.map_congr_left
      intro d hd
      exact digitCharOf_roundtrip d (decDigitsAux_lt n n d hd)
    rw [hmap, List.map_id]
    exact fromDec_decDigitsAux n n (Nat.le_refl n)

theorem decToString_injective : Function.Injective decToString := by
  intro m n h
  rw [← parseNat_decToString m, ← parseNat_decToString n, h]

theorem append_decToString_injective (p : String) :
    Function.Injective (fun i => p ++ decToString i) := by
  intro i j h
  simp only at h
  have hdata : (p ++ decToString i).data = (p ++ decToString j).data := by rw [h]
  rw [String.data_append, String.data_append] at hdata
  have : (decToString i).data = (decToString j).data :=
    List.append_cancel_left hdata
  exact decToString_injective (String.ext this)

/-! ## Lemmas: the assembled document batch -/

theorem mkDocs_length {A : Type} (name account : String) (sps : List SplitPage)
    (embs : List A) :
    (mkDocs name account sps embs).length = min sps.length embs.length := by
  simp [mkDocs]

theorem mkDocs_ids {A : Type} (name account : String) (sps : List SplitPage)
    (embs : List A) :
    (mkDocs name account sps embs).map (fun d => d.id)
      = (List.range (min sps.length embs.length)).map
          (fun i => (filename_to_id name ++ "-page-") ++ decToString i) := by
  apply List.ext_getElem
  · simp [mkDocs]
  · intro i h1 h2
    simp [mkDocs, mkDoc, List.getElem_enum, List.getElem_zip, List.getElem_range,
      String.append_assoc]

theorem mkDocs_getElem_content {A : Type} (name account : String)
    (sps : List SplitPage) (embs : List A) (i : Nat)
    (hi : i < (mkDocs name account sps embs).length) (hs : i < sps.length) :
    ((mkDocs name account sps embs).get ⟨i, hi⟩).content = (sps.get ⟨i, hs⟩).text := by
  simp [mkDocs, mkDoc, List.getElem_enum, List.getElem_zip]

theorem mkDocs_getElem_embedding {A : Type} (name account : String)
    (sps : List SplitPage) (embs : List A) (i : Nat)
    (hi : i < (mkDocs name account sps embs).length) (he : i < embs.length) :
    ((mkDocs name account sps embs).get ⟨i, hi⟩).embedding = embs.get ⟨i, he⟩ := by
  simp [mkDocs, mkDoc, List.getElem_enum, List.getElem_zip]

theorem mkDocs_ids_nodup {A : Type} (name account : String) (sps : List SplitPage)
    (embs : List A) :
    ((mkDocs name account sps embs).map (fun d => d.id)).Nodup := by
  rw [mkDocs_ids]
  exact (List.nodup_range _).map (append_decToString_injective _)


/-! ## Lemmas: shape of the normalized text -/

/-- No two adjacent whitespace characters. -/
def noAdjWS : List Char → Bool
  | a :: b :: t => (!(isWS a && isWS b)) && noAdjWS (b :: t)
  | _ => true

theorem noAdjWS_tail {a : Char} {l : List Char} (h : noAdjWS (a :: l) = true) :
    noAdjWS l = true := by
  cases l with
  | nil => rfl
  | cons b t =>
    have h2 : ((!(isWS a && isWS b)) && noAdjWS (b :: t)) = true := h
    simp only [Bool.and_eq_true] at h2
    exact h2.2

theorem noAdjWS_head {a b : Char} {l : List Char}
    (h : noAdjWS (a :: l) = true) (hb : l.head? = some b) :
    isWS a = false ∨ isWS b = false := by
  cases l with
  | nil => simp at hb
  | cons c t =>
    have hcb : c = b := by simpa using hb
    have h2 : ((!(isWS a && isWS c)) && noAdjWS (c :: t)) = true := h
    cases hA : isWS a with
    | false => exact Or.inl rfl
    | true =>
      cases hC : isWS c with
      | false => exact Or.inr (hcb ▸ hC)
      | true => rw [hA, hC] at h2; simp at h2

theorem noAdjWS_cons_of {a : Char} {l : List Char} (h : noAdjWS l = true)
    (hh : ∀ b, l.head? = some b → isWS a = false ∨ isWS b = false) :
    noAdjWS (a :: l) = true := by
  cases l with
  | nil => rfl
  | cons c t =>
    show ((!(isWS a && isWS c)) && noAdjWS (c :: t)) = true
    rcases hh c rfl with h1 | h1 <;> simp [h1, h]

theorem subWSAux_all_space :
    ∀ (l : List Char) (flag : Bool) (c : Char),
      c ∈ subWSAux l flag → isWS c = true → c = ' ' := by
  intro l
  induction l with
  | nil => intro flag c hc; simp [subWSAux] at hc
  | cons a t ih =>
    intro flag c hc hws
    cases ha : isWS a with
    | true =>
      cases flag with
      | true =>
        simp [subWSAux, ha] at hc
        exact ih true c hc hws
      | false =>
        simp [subWSAux, ha] at hc
        rcases hc with h | h
        · exact h
        · exact ih true c h hws
    | false =>
      simp [subWSAux, ha] at hc
      rcases hc with h | h
      · subst h; rw [hws] at ha; exact absurd ha (by simp)
      · exact ih false c h hws

theorem subWSAux_head_true :
    ∀ (l : List Char) (c : Char), (subWSAux l true).head? = some c → isWS c = false := by
  intro l
  induction l with
  | nil => intro c hc; simp [subWSAux] at hc
  | cons a t ih =>
    intro c hc
    cases ha : isWS a with
    | true =>
      simp [subWSAux, ha] at hc
      exact ih c (by simpa using hc)
    | false =>
      simp [subWSAux, ha] at hc
      cases hc
      exact ha

theorem subWSAux_noAdj :
    ∀ (l : List Char) (flag : Bool), noAdjWS (subWSAux l flag) = true := by
  intro l
  induction l with
  | nil => intro flag; rfl
  | cons a t ih =>
    intro flag
    cases ha : isWS a with
    | true =>
      cases flag with
      | true => simpa [subWSAux, ha] using ih true
      | false =>
        rw [show subWSAux (a :: t) false = ' ' :: subWSAux t true by simp [subWSAux, ha]]
        apply noAdjWS_cons_of (ih true)
        intro b hb
        exact Or.inr (subWSAux_head_true t b hb)
    | false =>
      rw [show subWSAux (a :: t) flag = a :: subWSAux t false by simp [subWSAux, ha]]
      apply noAdjWS_cons_of (ih false)
      intro b _
      exact Or.inl ha

theorem dropTrailingWS_mem :
    ∀ (l : List Char) (c : Char), c ∈ dropTrailingWS l → c ∈ l := by
  intro l
  induction l with
  | nil => intro c hc; simp [dropTrailingWS] at hc
  | cons a t ih =>
    intro c hc
    simp only [dropTrailingWS] at hc
    by_cases h : ((dropTrailingWS t).isEmpty && isWS a) = true
    · rw [if_pos h] at hc; simp at hc
    · rw [if_neg h] at hc
      simp only [List.mem_cons] at hc
      rcases hc with h1 | h1
      · simp [h1]
      · exact List.mem_cons_of_mem a (ih c h1)

theorem dropTrailingWS_head :
    ∀ (l : List Char), dropTrailingWS l = [] ∨ (dropTrailingWS l).head? = l.head? := by
  intro l
  cases l with
  | nil => left; rfl
  | cons a t =>
    simp only [dropTrailingWS]
    by_cases h : ((dropTrailingWS t).isEmpty && isWS a) = true
    · left; rw [if_pos h]
    · right; rw [if_neg h]; rfl

theorem dropTrailingWS_noAdj :
    ∀ (l : List Char), noAdjWS l = true → noAdjWS (dropTrailingWS l) = true := by
  intro l
  induction l with
  | nil => intro _; rfl
  | cons a t ih =>
    intro h
    simp only [dropTrailingWS]
    by_cases hc : ((dropTrailingWS t).isEmpty && isWS a) = true
    · rw [if_pos hc]; rfl
    · rw [if_neg hc]
      apply noAdjWS_cons_of (ih (noAdjWS_tail h))
      intro b hb
      rcases dropTrailingWS_head t with h1 | h1
      · rw [h1] at hb; simp at hb
      · exact noAdjWS_head h (h1 ▸ hb)

theorem dropTrailingWS_getLast :
    ∀ (l : List Char) (c : Char), (dropTrailingWS l).getLast? = some c → isWS c = false := by
  intro l
  induction l with
  | nil => intro c hc; simp [dropTrailingWS] at hc
  | cons a t ih =>
    intro c hc
    simp only [dropTrailingWS] at hc
    by_cases h : ((dropTrailingWS t).isEmpty && isWS a) = true
    · rw [if_pos h] at hc; simp at hc
    · rw [if_neg h] at hc
      rcases he : dropTrailingWS t with _ | ⟨b, r⟩
      · rw [he] at hc
        simp only [List.getLast?_singleton, Option.some.injEq] at hc
        subst hc
        rw [he] at h
        simpa using h
      · rw [he] at hc
        rw [List.getLast?_cons_cons] at hc
        exact ih c (by rw [he]; exact hc)

theorem mem_of_mem_dropWhileWS :
    ∀ (l : List Char) (c : Char), c ∈ l.dropWhile (fun c => isWS c) → c ∈ l := by
  intro l
  induction l with
  | nil => intro c hc; simp at hc
  | cons a t ih =>
    intro c hc
    cases ha : isWS a with
    | true =>
      simp [List.dropWhile_cons, ha] at hc
      exact List.mem_cons_of_mem a (ih c hc)
    | false =>
      simp [List.dropWhile_cons, ha] at hc
      simpa using hc

theorem noAdjWS_dropWhileWS :
    ∀ (l : List Char), noAdjWS l = true → noAdjWS (l.dropWhile (fun c => isWS c)) = true := by
  intro l
  induction l with
  | nil => intro _; rfl
  | cons a t ih =>
    intro h
    cases ha : isWS a with
    | true =>
      rw [show (a :: t).dropWhile (fun c => isWS c) = t.dropWhile (fun c => isWS c) by
        simp [List.dropWhile_cons, ha]]
      exact ih (noAdjWS_tail h)
    | false =>
      rw [show (a :: t).dropWhile (fun c => isWS c) = a :: t by
        simp [List.dropWhile_cons, ha]]
      exact h

theorem normalizeChars_all_space (l : List Char) (c : Char) :
    c ∈ normalizeChars l → isWS c = true → c = ' ' := by
  intro hc hws
  have h1 := dropTrailingWS_mem _ _ hc
  have h2 : c ∈ subWS l := mem_of_mem_dropWhileWS _ _ h1
  exact subWSAux_all_space l false c h2 hws

theorem normalizeChars_noAdj (l : List Char) : noAdjWS (normalizeChars l) = true :=
  dropTrailingWS_noAdj _ (noAdjWS_dropWhileWS _ (subWSAux_noAdj l false))

theorem normalizeChars_getLast (l : List Char) (c : Char) :
    (normalizeChars l).getLast? = some c → isWS c = false :=
  dropTrailingWS_getLast _ c


/-! ## Lemmas: the sentence split -/

theorem reSplitAux_ne_nil :
    ∀ (l cur : List Char) (flag : Bool), reSplitAux cur flag l ≠ [] := by
  intro l
  induction l with
  | nil => intro cur flag; simp [reSplitAux]
  | cons c cs ih =>
    intro cur flag
    cases hw : isWS c with
    | false =>
      rw [show reSplitAux cur flag (c :: cs) = reSplitAux (c :: cur) false cs by
        simp [reSplitAux, hw]]
      exact ih _ _
    | true =>
      cases flag with
      | true =>
        rw [show reSplitAux cur true (c :: cs) = reSplitAux cur true cs by
          simp [reSplitAux, hw]]
        exact ih _ _
      | false =>
        cases hp : lastIsPunct cur with
        | true => simp [reSplitAux, hw, hp]
        | false =>
          rw [show reSplitAux cur false (c :: cs) = reSplitAux (c :: cur) false cs by
            simp [reSplitAux, hw, hp]]
          exact ih _ _

theorem joinSp_cons {p : List Char} {ps : List (List Char)} (h : ps ≠ []) :
    joinSp (p :: ps) = p ++ ' ' :: joinSp ps := by
  cases ps with
  | nil => exact absurd rfl h
  | cons q t => rfl

theorem reSplitAux_true_eq_false (l : List Char)
    (hl : ∀ c, l.head? = some c → isWS c = false) :
    reSplitAux [] true l = reSplitAux [] false l := by
  cases l with
  | nil => rfl
  | cons c cs =>
    have hc := hl c rfl
    simp [reSplitAux, hc]

theorem reSplitAux_join :
    ∀ (l cur : List Char),
      (∀ c ∈ l, isWS c = true → c = ' ') → noAdjWS l = true →
      joinSp (reSplitAux cur false l) = cur.reverse ++ l := by
  intro l
  induction l with
  | nil => intro cur _ _; simp [reSplitAux, joinSp]
  | cons c cs ih =>
    intro cur hsp hadj
    cases hw : isWS c with
    | false =>
      rw [show reSplitAux cur false (c :: cs) = reSplitAux (c :: cur) false cs by
        simp [reSplitAux, hw]]
      rw [ih (c :: cur) (fun d hd hws => hsp d (List.mem_cons_of_mem c hd) hws)
        (noAdjWS_tail hadj)]
      simp
    | true =>
      have hc : c = ' ' := hsp c (List.mem_cons_self c cs) hw
      have hcs : ∀ b, cs.head? = some b → isWS b = false := by
        intro b hb
        rcases noAdjWS_head hadj hb with h1 | h1
        · rw [hw] at h1; cases h1
        · exact h1
      cases hp : lastIsPunct cur with
      | true =>
        rw [show reSplitAux cur false (c :: cs) = cur.reverse :: reSplitAux [] true cs by
          simp [reSplitAux, hw, hp]]
        rw [joinSp_cons (reSplitAux_ne_nil cs [] true)]
        rw [reSplitAux_true_eq_false cs hcs]
        rw [ih [] (fun d hd hws => hsp d (List.mem_cons_of_mem c hd) hws)
          (noAdjWS_tail hadj)]
        simp [hc]
      | false =>
        rw [show reSplitAux cur false (c :: cs) = reSplitAux (c :: cur) false cs by
          simp [reSplitAux, hw, hp]]
        rw [ih (c :: cur) (fun d hd hws => hsp d (List.mem_cons_of_mem c hd) hws)
          (noAdjWS_tail hadj)]
        simp

theorem reSplitAux_pieces_ne :
    ∀ (l cur : List Char),
      (∀ c, l.getLast? = some c → isWS c = false) →
      noAdjWS l = true →
      (l = [] → cur ≠ []) →
      ∀ p ∈ reSplitAux cur false l, p ≠ [] := by
  intro l
  induction l with
  | nil =>
    intro cur _ _ hcur p hp
    simp only [reSplitAux, List.mem_singleton] at hp
    subst hp
    simpa using hcur rfl
  | cons c cs ih =>
    intro cur hlast hadj _ p hp
    have hlast2 : cs ≠ [] → ∀ d, cs.getLast? = some d → isWS d = false := by
      intro hne d hd
      apply hlast d
      cases cs with
      | nil => exact absurd rfl hne
      | cons e r => rw [List.getLast?_cons_cons]; exact hd
    cases hw : isWS c with
    | false =>
      rw [show reSplitAux cur false (c :: cs) = reSplitAux (c :: cur) false cs by
        simp [reSplitAux, hw]] at hp
      refine ih (c :: cur) ?_ (noAdjWS_tail hadj) (by intro _; simp) p hp
      intro d hd
      cases cs with
      | nil => simp at hd
      | cons e r => exact hlast2 (by simp) d hd
    | true =>
      have hcs_ne : cs ≠ [] := by
        intro hnil
        subst hnil
        have h0 := hlast c (by simp)
        rw [hw] at h0; cases h0
      have hcs_head : ∀ b, cs.head? = some b → isWS b = false := by
        intro b hb
        rcases noAdjWS_head hadj hb with h1 | h1
        · rw [hw] at h1; cases h1
        · exact h1
      cases hp2 : lastIsPunct cur with
      | true =>
        rw [show reSplitAux cur false (c :: cs) = cur.reverse :: reSplitAux [] true cs by
          simp [reSplitAux, hw, hp2]] at hp
        simp only [List.mem_cons] at hp
        rcases hp with h1 | h1
        · subst h1
          intro hrev
          rw [List.reverse_eq_nil_iff] at hrev
          subst hrev
          simp [lastIsPunct] at hp2
        · rw [reSplitAux_true_eq_false cs hcs_head] at h1
          exact ih [] (hlast2 hcs_ne) (noAdjWS_tail hadj)
            (fun hnil => (hcs_ne hnil).elim) p h1
      | false =>
        rw [show reSplitAux cur false (c :: cs) = reSplitAux (c :: cur) false cs by
          simp [reSplitAux, hw, hp2]] at hp
        refine ih (c :: cur) ?_ (noAdjWS_tail hadj) (by intro _; simp) p hp
        intro d hd
        cases cs with
        | nil => simp at hd
        | cons e r => exact hlast2 (by simp) d hd

theorem sentencesOf_ne_nil (l : List Char) : sentencesOf l ≠ [] :=
  reSplitAux_ne_nil l [] false

theorem sentencesOf_join (l : List Char)
    (hsp : ∀ c ∈ l, isWS c = true → c = ' ') (hadj : noAdjWS l = true) :
    joinSp (sentencesOf l) = l := by
  have h := reSplitAux_join l [] hsp hadj
  simpa [sentencesOf] using h

theorem sentencesOf_pieces_ne (l : List Char)
    (hlast : ∀ c, l.getLast? = some c → isWS c = false)
    (hadj : noAdjWS l = true) (hne : l ≠ []) :
    ∀ p ∈ sentencesOf l, p ≠ [] :=
  reSplitAux_pieces_ne l [] hlast hadj (fun h => (hne h).elim)

/-! ## Lemmas: the chunker -/

theorem chunkLoop_ne_nil :
    ∀ (maxT : Nat) (sents cur : List (List Char)) (len num : Nat),
      (cur = [] → sents ≠ []) → chunkLoop maxT sents cur len num ≠ [] := by
  intro maxT sents
  induction sents with
  | nil =>
    intro cur len num h
    have hcur : cur ≠ [] := by
      intro hnil
      exact (h hnil) rfl
    simp [chunkLoop, List.isEmpty_iff, hcur]
  | cons s rest ih =>
    intro cur len num _
    by_cases hcond : maxT < len + wordCount s ∧ cur ≠ []
    · simp only [chunkLoop, if_pos hcond]
      simp
    · simp only [chunkLoop, if_neg hcond]
      exact ih (cur ++ [s]) (len + wordCount s) num (by simp)

theorem split_text_ne_nil (maxT : Nat) (t : String) : split_text maxT t ≠ [] :=
  chunkLoop_ne_nil maxT _ [] 0 0 (fun _ => sentencesOf_ne_nil _)

theorem chunkLoop_pages :
    ∀ (maxT : Nat) (sents cur : List (List Char)) (len num : Nat),
      (chunkLoop maxT sents cur len num).map (fun sp => sp.page_num)
        = List.range' num (chunkLoop maxT sents cur len num).length := by
  intro maxT sents
  induction sents with
  | nil =>
    intro cur len num
    by_cases hc : cur.isEmpty
    · simp [chunkLoop, hc]
    · simp [chunkLoop, hc, List.range']
  | cons s rest ih =>
    intro cur len num
    by_cases hcond : maxT < len + wordCount s ∧ cur ≠ []
    · simp only [chunkLoop, if_pos hcond, List.map_cons, List.length_cons]
      rw [ih [s] (wordCount s) (num + 1)]
      rw [List.range'_succ]
    · simp only [chunkLoop, if_neg hcond]
      exact ih (cur ++ [s]) (len + wordCount s) num

theorem split_text_pages (maxT : Nat) (t : String) :
    (split_text maxT t).map (fun sp => sp.page_num)
      = List.range (split_text maxT t).length := by
  rw [List.range_eq_range']
  exact chunkLoop_pages maxT _ [] 0 0

theorem joinSp_append :
    ∀ (a b : List (List Char)), a ≠ [] → b ≠ [] →
      joinSp (a ++ b) = joinSp a ++ ' ' :: joinSp b := by
  intro a
  induction a with
  | nil => intro b h _; exact absurd rfl h
  | cons p a2 ih =>
    intro b _ hb
    cases a2 with
    | nil =>
      rw [List.singleton_append, joinSp_cons hb]
      rfl
    | cons q t =>
      rw [List.cons_append, joinSp_cons (by simp : (q :: t) ++ b ≠ [])]
      rw [ih b (by simp) hb]
      rw [joinSp_cons (by simp : (q :: t) ≠ ([] : List (List Char)))]
      simp

theorem chunkLoop_join :
    ∀ (maxT : Nat) (sents cur : List (List Char)) (len num : Nat),
      joinSp ((chunkLoop maxT sents cur len num).map (fun sp => sp.text.data))
        = joinSp (cur ++ sents) := by
  intro maxT sents
  induction sents with
  | nil =>
    intro cur len num
    by_cases hc : cur.isEmpty
    · rw [List.isEmpty_iff] at hc
      simp [chunkLoop, hc, joinSp]
    · have hveto : ¬cur.isEmpty = true := hc
      simp only [chunkLoop, hveto, Bool.false_eq_true, if_false]
      simp [joinSp]
  | cons s rest ih =>
    intro cur len num
    by_cases hcond : maxT < len + wordCount s ∧ cur ≠ []
    · simp only [chunkLoop, if_pos hcond, List.map_cons]
      have hne : (chunkLoop maxT rest [s] (wordCount s) (num + 1)).map
          (fun sp => sp.text.data) ≠ [] := by
        simp only [ne_eq, List.map_eq_nil_iff]
        exact chunkLoop_ne_nil maxT rest [s] (wordCount s) (num + 1) (by simp)
      rw [joinSp_cons hne, ih [s] (wordCount s) (num + 1)]
      rw [joinSp_append cur (s :: rest) hcond.2 (by simp)]
      rfl
    · simp only [chunkLoop, if_neg hcond]
      rw [ih (cur ++ [s]) (len + wordCount s) num]
      simp

theorem split_text_join (maxT : Nat) (t : String) :
    joinSp ((split_text maxT t).map (fun sp => sp.text.data))
      = normalizeChars t.data := by
  rw [split_text, chunkLoop_join]
  simp only [List.nil_append]
  exact sentencesOf_join _ (fun c hc hws => normalizeChars_all_space _ c hc hws)
    (normalizeChars_noAdj _)

theorem wordsAux_append_space :
    ∀ (a b cur : List Char),
      wordsAux cur (a ++ ' ' :: b) = wordsAux cur a ++ wordsAux [] b := by
  intro a
  induction a with
  | nil =>
    intro b cur
    cases hc : cur.isEmpty with
    | true => simp [wordsAux, hc, isWS]
    | false => simp [wordsAux, hc, isWS]
  | cons x a2 ih =>
    intro b cur
    cases hx : isWS x with
    | true =>
      cases hc : cur.isEmpty with
      | true => simp [wordsAux, hx, hc, ih]
      | false => simp [wordsAux, hx, hc, ih]
    | false => simp [wordsAux, hx, ih]

theorem wordCount_append_space (a b : List Char) :
    wordCount (a ++ ' ' :: b) = wordCount a + wordCount b := by
  simp [wordCount, wordsOf, wordsAux_append_space, List.length_append]

theorem wordCount_joinSp :
    ∀ (l : List (List Char)),
      wordCount (joinSp l) = (l.map (fun p => wordCount p)).sum := by
  intro l
  induction l with
  | nil => simp [joinSp, wordCount, wordsOf, wordsAux]
  | cons p ps ih =>
    cases ps with
    | nil => simp [joinSp]
    | cons q t =>
      rw [joinSp_cons (by simp : (q :: t) ≠ ([] : List (List Char)))]
      rw [wordCount_append_space, ih]
      simp

theorem joinSp_ne_nil :
    ∀ (l : List (List Char)), l ≠ [] → (∀ p ∈ l, p ≠ []) → joinSp l ≠ [] := by
  intro l hl hp
  cases l with
  | nil => exact absurd rfl hl
  | cons p ps =>
    cases ps with
    | nil => exact hp p (by simp)
    | cons q t =>
      rw [joinSp_cons (by simp : (q :: t) ≠ ([] : List (List Char)))]
      simp

theorem chunkLoop_budget :
    ∀ (maxT : Nat) (allS sents cur : List (List Char)) (len num : Nat),
      len = (cur.map (fun p => wordCount p)).sum →
      (∀ s ∈ cur, s ∈ allS) → (∀ s ∈ sents, s ∈ allS) →
      ((∃ s, cur = [s]) ∨ len ≤ maxT) →
      ∀ sec ∈ chunkLoop maxT sents cur len num,
        wordCount sec.text.data ≤ maxT ∨
          ∃ s ∈ allS, sec.text.data = s ∧ maxT < wordCount s := by
  intro maxT allS sents
  induction sents with
  | nil =>
    intro cur len num h1 h2 _ h4 sec hsec
    by_cases hc : cur.isEmpty
    · simp [chunkLoop, hc] at hsec
    · have hveto : ¬cur.isEmpty = true := hc
      simp only [chunkLoop, hveto, Bool.false_eq_true, if_false,
        List.mem_singleton] at hsec
      subst hsec
      show wordCount (joinSp cur) ≤ maxT ∨ _
      rcases h4 with ⟨s, hs⟩ | h4
      · subst hs
        rcases le_or_lt (wordCount s) maxT with h | h
        · left; simpa [joinSp] using h
        · right; exact ⟨s, h2 s (by simp), by simp [joinSp], h⟩
      · left
        rw [wordCount_joinSp]
        rw [h1] at h4
        exact h4
  | cons s rest ih =>
    intro cur len num h1 h2 h3 h4 sec hsec
    by_cases hcond : maxT < len + wordCount s ∧ cur ≠ []
    · simp only [chunkLoop, if_pos hcond, List.mem_cons] at hsec
      rcases hsec with hsec | hsec
      · subst hsec
        show wordCount (joinSp cur) ≤ maxT ∨ _
        rcases h4 with ⟨s2, hs2⟩ | h4
        · subst hs2
          rcases le_or_lt (wordCount s2) maxT with h | h
          · left; simpa [joinSp] using h
          · right; exact ⟨s2, h2 s2 (by simp), by simp [joinSp], h⟩
        · left
          rw [wordCount_joinSp]
          rw [h1] at h4
          exact h4
      · exact ih [s] (wordCount s) (num + 1) (by simp)
          (by intro x hx; simp at hx; subst hx; exact h3 _ (by simp))
          (by intro x hx; exact h3 x (List.mem_cons_of_mem s hx))
          (Or.inl ⟨s, rfl⟩) sec hsec
    · simp only [chunkLoop, if_neg hcond] at hsec
      refine ih (cur ++ [s]) (len + wordCount s) num ?_ ?_ ?_ ?_ sec hsec
      · simp [h1]
      · intro x hx
        rcases List.mem_append.mp hx with h | h
        · exact h2 x h
        · simp at h; subst h; exact h3 _ (by simp)
      · intro x hx; exact h3 x (List.mem_cons_of_mem s hx)
      · by_cases hcur : cur = []
        · subst hcur; exact Or.inl ⟨s, rfl⟩
        · right
          have hle : ¬ maxT < len + wordCount s := by
            intro hlt
            exact hcond ⟨hlt, hcur⟩
          omega

theorem chunkLoop_sections_ne :
    ∀ (maxT : Nat) (sents cur : List (List Char)) (len num : Nat),
      (∀ s ∈ cur, s ≠ []) → (∀ s ∈ sents, s ≠ []) →
      ∀ sec ∈ chunkLoop maxT sents cur len num, sec.text.data ≠ [] := by
  intro maxT sents
  induction sents with
  | nil =>
    intro cur len num h2 _ sec hsec
    by_cases hc : cur.isEmpty
    · simp [chunkLoop, hc] at hsec
    · have hne : ¬cur.isEmpty = true := hc
      simp only [chunkLoop, hne, Bool.false_eq_true, if_false,
        List.mem_singleton] at hsec
      subst hsec
      exact joinSp_ne_nil cur (by simpa [List.isEmpty_iff] using hne) h2
  | cons s rest ih =>
    intro cur len num h2 h3 sec hsec
    by_cases hcond : maxT < len + wordCount s ∧ cur ≠ []
    · simp only [chunkLoop, if_pos hcond, List.mem_cons] at hsec
      rcases hsec with hsec | hsec
      · subst hsec
        exact joinSp_ne_nil cur hcond.2 h2
      · exact ih [s] (wordCount s) (num + 1)
          (by intro x hx; simp at hx; subst hx; exact h3 _ (by simp))
          (by intro x hx; exact h3 x (List.mem_cons_of_mem s hx)) sec hsec
    · simp only [chunkLoop, if_neg hcond] at hsec
      refine ih (cur ++ [s]) (len + wordCount s) num ?_ ?_ sec hsec
      · intro x hx
        rcases List.mem_append.mp hx with h | h
        · exact h2 x h
        · simp at h; subst h; exact h3 _ (by simp)
      · intro x hx; exact h3 x (List.mem_cons_of_mem s hx)

/-! ## Lemmas: embedding generation and retry -/

theorem ceOnce_ok {E A : Type} (svc : Nat → String → Except E A) (maxTok : Nat) :
    ∀ (ts : List String) (off : Nat) (vs : List A) (off2 : Nat),
      ceOnce svc maxTok off ts = (Except.ok vs, off2) →
      vs.length = ts.length ∧ off2 = off + ts.length := by
  intro ts
  induction ts with
  | nil =>
    intro off vs off2 h
    simp only [ceOnce, Prod.mk.injEq] at h
    obtain ⟨h1, h2⟩ := h
    cases h1
    simp [h2]
  | cons t rest ih =>
    intro off vs off2 h
    simp only [ceOnce] at h
    rcases hsvc : svc off (truncateWords maxTok t) with e | v <;> rw [hsvc] at h
    · simp at h
    · rcases hrec : ceOnce svc maxTok (off + 1) rest with ⟨r, off3⟩
      rw [hrec] at h
      cases r with
      | error e => simp at h
      | ok vs2 =>
        simp only [Prod.mk.injEq] at h
        obtain ⟨h1, h2⟩ := h
        cases h1
        obtain ⟨hl, ho⟩ := ih (off + 1) vs2 off3 hrec
        subst h2
        constructor
        · simp [hl]
        · show off3 = off + (rest.length + 1)
          omega

theorem ceOnce_calls_le {E A : Type} (svc : Nat → String → Except E A) (maxTok : Nat) :
    ∀ (ts : List String) (off : Nat),
      (ceOnce svc maxTok off ts).2 ≤ off + ts.length := by
  intro ts
  induction ts with
  | nil => intro off; simp [ceOnce]
  | cons t rest ih =>
    intro off
    simp only [ceOnce]
    rcases hsvc : svc off (truncateWords maxTok t) with e | v <;> simp only [hsvc]
    · simp
    · rcases hrec : ceOnce svc maxTok (off + 1) rest with ⟨r, off3⟩
      have hro := ih (off + 1)
      rw [hrec] at hro
      have hro2 : off3 ≤ off + 1 + rest.length := hro
      cases r with
      | error e =>
        show off3 ≤ off + (rest.length + 1)
        omega
      | ok vs2 =>
        show off3 ≤ off + (rest.length + 1)
        omega

theorem ceRetryAux_ok_length {E A : Type} (svc : Nat → String → Except E A)
    (maxTok : Nat) (ts : List String) :
    ∀ (r off : Nat) (vs : List A) (off2 att : Nat),
      ceRetryAux svc maxTok ts off r = (Except.ok vs, off2, att) →
      vs.length = ts.length := by
  intro r
  induction r with
  | zero =>
    intro off vs off2 att h
    simp only [ceRetryAux] at h
    rcases hc : ceOnce svc maxTok off ts with ⟨r0, o0⟩
    rw [hc] at h
    simp only [Prod.mk.injEq] at h
    obtain ⟨h1, _, _⟩ := h
    subst h1
    exact (ceOnce_ok svc maxTok ts off vs o0 hc).1
  | succ r2 ih =>
    intro off vs off2 att h
    simp only [ceRetryAux] at h
    rcases hc : ceOnce svc maxTok off ts with ⟨r0, o0⟩
    rw [hc] at h
    cases r0 with
    | ok v =>
      simp only [Prod.mk.injEq] at h
      obtain ⟨h1, _, _⟩ := h
      cases h1
      exact (ceOnce_ok svc maxTok ts off vs o0 hc).1
    | error e =>
      simp only [Prod.mk.injEq] at h
      obtain ⟨h1, h2, h3⟩ := h
      rcases hr : ceRetryAux svc maxTok ts o0 r2 with ⟨r3, o3, a3⟩
      rw [hr] at h1
      have h1b : r3 = Except.ok vs := h1
      rw [h1b] at hr
      exact ih o0 vs o3 a3 hr

theorem ceRetryAux_attempts_le {E A : Type} (svc : Nat → String → Except E A)
    (maxTok : Nat) (ts : List String) :
    ∀ (r off : Nat), (ceRetryAux svc maxTok ts off r).2.2 ≤ r + 1 := by
  intro r
  induction r with
  | zero =>
    intro off
    simp only [ceRetryAux]
    rcases hc : ceOnce svc maxTok off ts with ⟨r0, o0⟩
    show (1 : Nat) ≤ 0 + 1
    omega
  | succ r2 ih =>
    intro off
    simp only [ceRetryAux]
    rcases hc : ceOnce svc maxTok off ts with ⟨r0, o0⟩
    cases r0 with
    | ok v =>
      show (1 : Nat) ≤ r2 + 1 + 1
      omega
    | error e =>
      show (ceRetryAux svc maxTok ts o0 r2).2.2 + 1 ≤ r2 + 1 + 1
      have hih := ih o0
      omega

theorem ceRetryAux_calls_le {E A : Type} (svc : Nat → String → Except E A)
    (maxTok : Nat) (ts : List String) :
    ∀ (r off : Nat), (ceRetryAux svc maxTok ts off r).2.1 ≤ off + (r + 1) * ts.length := by
  intro r
  induction r with
  | zero =>
    intro off
    simp only [ceRetryAux]
    rcases hc : ceOnce svc maxTok off ts with ⟨r0, o0⟩
    have hco := ceOnce_calls_le svc maxTok ts off
    rw [hc] at hco
    have hco2 : o0 ≤ off + ts.length := hco
    show o0 ≤ off + 1 * ts.length
    omega
  | succ r2 ih =>
    intro off
    simp only [ceRetryAux]
    rcases hc : ceOnce svc maxTok off ts with ⟨r0, o0⟩
    have h1 := ceOnce_calls_le svc maxTok ts off
    rw [hc] at h1
    have h1b : o0 ≤ off + ts.length := h1
    cases r0 with
    | ok v =>
      show o0 ≤ off + (r2 + 1 + 1) * ts.length
      have h2 : ts.length ≤ (r2 + 1 + 1) * ts.length :=
        Nat.le_mul_of_pos_left ts.length (by omega)
      omega
    | error e =>
      show (ceRetryAux svc maxTok ts o0 r2).2.1 ≤ off + (r2 + 1 + 1) * ts.length
      have h2 := ih o0
      have h3 : (r2 + 1 + 1) * ts.length = ts.length + (r2 + 1) * ts.length := by ring
      omega

theorem create_embeddings_ok_length {E A : Type} (svc : Nat → String → Except E A)
    (ts : List String) (vs : List A) (off2 att : Nat)
    (h : create_embeddings svc ts = (Except.ok vs, off2, att)) :
    vs.length = ts.length :=
  ceRetryAux_ok_length svc 8000 ts 2 0 vs off2 att h

theorem create_embeddings_attempts_le {E A : Type} (svc : Nat → String → Except E A)
    (ts : List String) : (create_embeddings svc ts).2.2 ≤ 3 :=
  ceRetryAux_attempts_le svc 8000 ts 2 0

theorem create_embeddings_calls_le {E A : Type} (svc : Nat → String → Except E A)
    (ts : List String) : (create_embeddings svc ts).2.1 ≤ 3 * ts.length := by
  have h := ceRetryAux_calls_le svc 8000 ts 2 0
  simpa using h

/-! ## Lemmas: the orchestrator -/

theorem run_cases {E A : Type} (pdfX : List Nat → Except E String)
    (utf8 : List Nat → Option String) (latin1 : List Nat → String)
    (svc : Nat → String → Except E A) (account : String)
    (content : List Nat) (ctype name : String) :
    (process_file_and_update_index pdfX utf8 latin1 svc account content ctype name).uploads = []
    ∨ ∃ text embs calls att,
        content.isEmpty = false ∧
        extract_text pdfX utf8 latin1 ⟨name, content, ctype⟩ = Except.ok text ∧
        text ≠ "" ∧
        create_embeddings svc ((split_text 2000 text).map (fun sp => sp.text))
          = (Except.ok embs, calls, att) ∧
        process_file_and_update_index pdfX utf8 latin1 svc account content ctype name
          = { result := Except.ok PyValue.none, extractedText := some text,
              sections := some (split_text 2000 text), embedAttempts := att,
              serviceCalls := calls,
              uploads := [mkDocs name account (split_text 2000 text) embs] } := by
  by_cases hemp : content.isEmpty = true
  · left; simp [process_file_and_update_index, hemp]
  · rcases hext : extract_text pdfX utf8 latin1 ⟨name, content, ctype⟩ with e | text
    · left; simp [process_file_and_update_index, hemp, hext]
    · by_cases htext : text = ""
      · left; simp [process_file_and_update_index, hemp, hext, htext]
      · rcases hce : create_embeddings svc ((split_text 2000 text).map (fun sp => sp.text))
          with ⟨r, calls, att⟩
        cases r with
        | error e =>
          left; simp [process_file_and_update_index, hemp, hext, htext, hce]
        | ok embs =>
          right
          refine ⟨text, embs, calls, att, by simpa using hemp, rfl, htext, hce, ?_⟩
          simp [process_file_and_update_index, hemp, hext, htext, hce]

theorem run_embed_error {E A : Type} (pdfX : List Nat → Except E String)
    (utf8 : List Nat → Option String) (latin1 : List Nat → String)
    (svc : Nat → String → Except E A) (account : String)
    (content : List Nat) (ctype name : String) (sps : List SplitPage) (e : E)
    (calls att : Nat)
    (hsec : (process_file_and_update_index pdfX utf8 latin1 svc account content ctype
      name).sections = some sps)
    (hce : create_embeddings svc (sps.map (fun sp => sp.text))
      = (Except.error e, calls, att)) :
    (process_file_and_update_index pdfX utf8 latin1 svc account content ctype
      name).result = Except.error e ∧
    (process_file_and_update_index pdfX utf8 latin1 svc account content ctype
      name).uploads = [] := by
  by_cases hemp : content.isEmpty = true
  · exfalso; simp [process_file_and_update_index, hemp] at hsec
  · rcases hext : extract_text pdfX utf8 latin1 ⟨name, content, ctype⟩ with e2 | text
    · exfalso; simp [process_file_and_update_index, hemp, hext] at hsec
    · by_cases htext : text = ""
      · exfalso; simp [process_file_and_update_index, hemp, hext, htext] at hsec
      · have hsps : sps = split_text 2000 text := by
          rcases hce2 : create_embeddings svc
              ((split_text 2000 text).map (fun sp => sp.text)) with ⟨r, c2, a2⟩
          cases r with
          | error e3 =>
            simp [process_file_and_update_index, hemp, hext, htext, hce2] at hsec
            exact hsec.symm
          | ok embs =>
            simp [process_file_and_update_index, hemp, hext, htext, hce2] at hsec
            exact hsec.symm
        subst hsps
        constructor
        · simp [process_file_and_update_index, hemp, hext, htext, hce]
        · simp [process_file_and_update_index, hemp, hext, htext, hce]

theorem run_embed_ok {E A : Type} (pdfX : List Nat → Except E String)
    (utf8 : List Nat → Option String) (latin1 : List Nat → String)
    (svc : Nat → String → Except E A) (account : String)
    (content : List Nat) (ctype name : String) (sps : List SplitPage)
    (embs : List A) (calls att : Nat)
    (hsec : (process_file_and_update_index pdfX utf8 latin1 svc account content ctype
      name).sections = some sps)
    (hce : create_embeddings svc (sps.map (fun sp => sp.text))
      = (Except.ok embs, calls, att)) :
    (process_file_and_update_index pdfX utf8 latin1 svc account content ctype
      name).result = Except.ok PyValue.none ∧
    (process_file_and_update_index pdfX utf8 latin1 svc account content ctype
      name).uploads = [mkDocs name account sps embs] := by
  by_cases hemp : content.isEmpty = true
  · exfalso; simp [process_file_and_update_index, hemp] at hsec
  · rcases hext : extract_text pdfX utf8 latin1 ⟨name, content, ctype⟩ with e2 | text
    · exfalso; simp [process_file_and_update_index, hemp, hext] at hsec
    · by_cases htext : text = ""
      · exfalso; simp [process_file_and_update_index, hemp, hext, htext] at hsec
      · have hsps : sps = split_text 2000 text := by
          rcases hce2 : create_embeddings svc
              ((split_text 2000 text).map (fun sp => sp.text)) with ⟨r, c2, a2⟩
          cases r with
          | error e3 =>
            simp [process_file_and_update_index, hemp, hext, htext, hce2] at hsec
            exact hsec.symm
          | ok embs2 =>
            simp [process_file_and_update_index, hemp, hext, htext, hce2] at hsec
            exact hsec.symm
        subst hsps
        constructor
        · simp [process_file_and_update_index, hemp, hext, htext, hce]
        · simp [process_file_and_update_index, hemp, hext, htext, hce]

theorem run_empty_content {E A : Type} (pdfX : List Nat → Except E String)
    (utf8 : List Nat → Option String) (latin1 : List Nat → String)
    (svc : Nat → String → Except E A) (account : String)
    (content : List Nat) (ctype name : String) (h : content.isEmpty = true) :
    process_file_and_update_index pdfX utf8 latin1 svc account content ctype name
      = { result := Except.ok PyValue.none, extractedText := Option.none,
          sections := Option.none, embedAttempts := 0, serviceCalls := 0,
          uploads := [] } := by
  simp [process_file_and_update_index, h]

theorem run_empty_text {E A : Type} (pdfX : List Nat → Except E String)
    (utf8 : List Nat → Option String) (latin1 : List Nat → String)
    (svc : Nat → String → Except E A) (account : String)
    (content : List Nat) (ctype name : String) (text : String)
    (hext : extract_text pdfX utf8 latin1 ⟨name, content, ctype⟩ = Except.ok text)
    (htext : text = "") :
    (process_file_and_update_index pdfX utf8 latin1 svc account content ctype
      name).result = Except.ok PyValue.none ∧
    (process_file_and_update_index pdfX utf8 latin1 svc account content ctype
      name).embedAttempts = 0 ∧
    (process_file_and_update_index pdfX utf8 latin1 svc account content ctype
      name).serviceCalls = 0 ∧
    (process_file_and_update_index pdfX utf8 latin1 svc account content ctype
      name).uploads = [] := by
  by_cases hemp : content.isEmpty = true
  · simp [process_file_and_update_index, hemp]
  · simp [process_file_and_update_index, hemp, hext, htext]

theorem run_attempts_bound {E A : Type} (pdfX : List Nat → Except E String)
    (utf8 : List Nat → Option String) (latin1 : List Nat → String)
    (svc : Nat → String → Except E A) (account : String)
    (content : List Nat) (ctype name : String) :
    (process_file_and_update_index pdfX utf8 latin1 svc account content ctype
      name).embedAttempts ≤ 3 ∧
    (∀ sps, (process_file_and_update_index pdfX utf8 latin1 svc account content ctype
      name).sections = some sps →
      (process_file_and_update_index pdfX utf8 latin1 svc account content ctype
        name).serviceCalls ≤ 3 * sps.length) := by
  by_cases hemp : content.isEmpty = true
  · constructor
    · simp [process_file_and_update_index, hemp]
    · intro sps hsec; simp [process_file_and_update_index, hemp] at hsec
  · rcases hext : extract_text pdfX utf8 latin1 ⟨name, content, ctype⟩ with e | text
    · constructor
      · simp [process_file_and_update_index, hemp, hext]
      · intro sps hsec; simp [process_file_and_update_index, hemp, hext] at hsec
    · by_cases htext : text = ""
      · constructor
        · simp [process_file_and_update_index, hemp, hext, htext]
        · intro sps hsec
          simp [process_file_and_update_index, hemp, hext, htext] at hsec
      · rcases hce : create_embeddings svc
            ((split_text 2000 text).map (fun sp => sp.text)) with ⟨r, calls, att⟩
        have hatt := create_embeddings_attempts_le svc
          ((split_text 2000 text).map (fun sp => sp.text))
        have hcalls := create_embeddings_calls_le svc
          ((split_text 2000 text).map (fun sp => sp.text))
        rw [hce] at hatt hcalls
        simp only [List.length_map] at hcalls
        have hatt2 : att ≤ 3 := hatt
        have hcalls2 : calls ≤ 3 * (split_text 2000 text).length := hcalls
        cases r with
        | error e =>
          constructor
          · simpa [process_file_and_update_index, hemp, hext, htext, hce] using hatt2
          · intro sps hsec
            simp [process_file_and_update_index, hemp, hext, htext, hce] at hsec ⊢
            rw [← hsec]
            exact hcalls2
        | ok embs =>
          constructor
          · simpa [process_file_and_update_index, hemp, hext, htext, hce] using hatt2
          · intro sps hsec
            simp [process_file_and_update_index, hemp, hext, htext, hce] at hsec ⊢
            rw [← hsec]
            exact hcalls2

theorem run_pre_stages_svc_independent {E A : Type} (pdfX : List Nat → Except E String)
    (utf8 : List Nat → Option String) (latin1 : List Nat → String)
    (svc svcB : Nat → String → Except E A) (account : String)
    (content : List Nat) (ctype name : String) :
    (process_file_and_update_index pdfX utf8 latin1 svc account content ctype
      name).extractedText
      = (process_file_and_update_index pdfX utf8 latin1 svcB account content ctype
        name).extractedText ∧
    (process_file_and_update_index pdfX utf8 latin1 svc account content ctype
      name).sections
      = (process_file_and_update_index pdfX utf8 latin1 svcB account content ctype
        name).sections := by
  by_cases hemp : content.isEmpty = true
  · simp [process_file_and_update_index, hemp]
  · rcases hext : extract_text pdfX utf8 latin1 ⟨name, content, ctype⟩ with e | text
    · simp [process_file_and_update_index, hemp, hext]
    · by_cases htext : text = ""
      · simp [process_file_and_update_index, hemp, hext, htext]
      · rcases hce : create_embeddings svc
            ((split_text 2000 text).map (fun sp => sp.text)) with ⟨r, calls, att⟩
        rcases hceB : create_embeddings svcB
            ((split_text 2000 text).map (fun sp => sp.text)) with ⟨rB, callsB, attB⟩
        cases r <;> cases rB <;>
          simp [process_file_and_update_index, hemp, hext, htext, hce, hceB]

/-! ## Claim theorems -/

/-- C3: for every non-empty input text the chunker's sections carry sequence
numbers exactly `0..k-1` with no gaps, and joining the emitted sections'
texts in order with single spaces reconstructs the whitespace-normalized
input text losslessly. -/
theorem c3_chunker_lossless (maxT : Nat) (t : String) (_h : t ≠ "") :
    (split_text maxT t).map (fun sp => sp.page_num)
        = List.range (split_text maxT t).length ∧
    joinSp ((split_text maxT t).map (fun sp => sp.text.data))
        = normalizeChars t.data :=
  ⟨split_text_pages maxT t, split_text_join maxT t⟩

/-- Witness for C3 at the concrete input `"Hi. Bye."`. -/
theorem c3_chunker_lossless_witness :
    (("Hi. Bye." : String) ≠ "") ∧
    ((split_text 2000 "Hi. Bye.").map (fun sp => sp.page_num)
        = List.range (split_text 2000 "Hi. Bye.").length ∧
      joinSp ((split_text 2000 "Hi. Bye.").map (fun sp => sp.text.data))
        = normalizeChars ("Hi. Bye." : String).data) :=
  ⟨by decide, c3_chunker_lossless 2000 "Hi. Bye." (by decide)⟩

/-- C4 (counterexample): the chunker can emit a section with empty text: on
the empty input it emits exactly one section and that section's text is
empty, contradicting "every section the chunker emits is non-empty"
quantified over every input text. -/
theorem c4_empty_section_counterexample :
    (⟨"", 0⟩ : SplitPage) ∈ split_text 2000 "" ∧ (⟨"", 0⟩ : SplitPage).text = "" := by
  constructor <;> decide

/-- C4 (amended): whenever the whitespace-normalized input is non-empty,
every emitted section's text is non-empty (the sole exception, empty or
whitespace-only input, yields one empty section); and for every input each
emitted section's word count is at most `max_tokens` unless the section
consists of a single sentence whose word count alone exceeds `max_tokens` —
that oversized sentence is kept whole, never split further. -/
theorem c4_sections_nonempty_and_budget (maxT : Nat) (t : String) :
    (normalizeChars t.data ≠ [] →
      ∀ sec ∈ split_text maxT t, sec.text ≠ "") ∧
    (∀ sec ∈ split_text maxT t,
      wordCount sec.text.data ≤ maxT ∨
        ∃ s ∈ sentencesOf (normalizeChars t.data),
          sec.text.data = s ∧ maxT < wordCount s) := by
  constructor
  · intro hne sec hsec
    have h := chunkLoop_sections_ne maxT (sentencesOf (normalizeChars t.data)) [] 0 0
      (by intro s hs; simp at hs)
      (sentencesOf_pieces_ne _ (normalizeChars_getLast _) (normalizeChars_noAdj _) hne)
      sec hsec
    intro hstr
    apply h
    rw [hstr]
  · intro sec hsec
    exact chunkLoop_budget maxT (sentencesOf (normalizeChars t.data))
      (sentencesOf (normalizeChars t.data)) [] 0 0
      (by simp) (by intro s hs; simp at hs) (fun s hs => hs)
      (Or.inr (by omega)) sec hsec

/-- Witness for C4 (amended) at `max_tokens = 3` on
`"One two three four. Five."`: the oversized first section is non-empty and
falls under the single-oversized-sentence exception. -/
theorem c4_sections_witness :
    ((⟨"One two three four.", 0⟩ : SplitPage).text ≠ "") ∧
    (wordCount (⟨"One two three four.", 0⟩ : SplitPage).text.data ≤ 3 ∨
      ∃ s ∈ sentencesOf (normalizeChars ("One two three four. Five." : String).data),
        (⟨"One two three four.", 0⟩ : SplitPage).text.data = s ∧ 3 < wordCount s) :=
  ⟨(c4_sections_nonempty_and_budget 3 "One two three four. Five.").1 (by decide)
      ⟨"One two three four.", 0⟩ (by decide),
   (c4_sections_nonempty_and_budget 3 "One two three four. Five.").2
      ⟨"One two three four.", 0⟩ (by decide)⟩

/-- C5 (counterexample): the chunker's split applied to the empty input does
not return an empty sequence. -/
theorem c5_empty_input_counterexample : split_text 2000 "" ≠ [] := by decide

/-- C5 (amended): on the empty input the chunker returns exactly one
section, whose text is empty and whose sequence number is 0. -/
theorem c5_empty_input_amended : split_text 2000 "" = [⟨"", 0⟩] := by decide

/-- C6: `sourcepage_from_file_page` returns `<basename>#page=<page+1>` when
the filename's extension is `.pdf` case-insensitively and just `<basename>`
otherwise; in particular `("report.pdf", 2)` yields `"report.pdf#page=3"`
and `("notes.txt", 0)` yields `"notes.txt"`. -/
theorem c6_sourcepage :
    (∀ (fn : String) (pg : Nat),
      sourcepage_from_file_page fn pg
        = if lowerAscii (splitextExt fn) = ".pdf"
          then pyBasename fn ++ "#page=" ++ decToString (pg + 1)
          else pyBasename fn) ∧
    sourcepage_from_file_page "report.pdf" 2 = "report.pdf#page=3" ∧
    sourcepage_from_file_page "notes.txt" 0 = "notes.txt" :=
  ⟨fun fn pg => rfl, by decide, by decide⟩

/-- C10: within any single run's uploaded batch the `id` fields of the
documents are pairwise distinct, since each is the name-derived prefix
suffixed with the document's 0-based batch position. -/
theorem c10_batch_ids_distinct {E A : Type} (pdfX : List Nat → Except E String)
    (utf8 : List Nat → Option String) (latin1 : List Nat → String)
    (svc : Nat → String → Except E A) (account : String)
    (content : List Nat) (ctype name : String) (batch : List (IndexDocument A))
    (h : batch ∈ (process_file_and_update_index pdfX utf8 latin1 svc account content
      ctype name).uploads) :
    (batch.map (fun d => d.id)).Nodup := by
  rcases run_cases pdfX utf8 latin1 svc account content ctype name with
    hnil | ⟨text, embs, calls, att, _, _, _, _, heq⟩
  · rw [hnil] at h; simp at h
  · rw [heq] at h
    simp only [List.mem_singleton] at h
    subst h
    exact mkDocs_ids_nodup name account _ embs

/-- The document produced by the concrete witness runs below (embedding
value `emb`). -/
def witnessDoc (emb : Nat) : IndexDocument Nat :=
  { id := "a_b_txt-page-0", content := "Hi. Bye.", embedding := emb,
    title := "b.txt", category := Option.none, sourcefile := "a/b.txt",
    sourcepage := "b.txt", urls := [],
    storageUrl := "https://acct.blob.core.windows.net/evidencefiles/a/b.txt" }

/-- Witness for C10 on a concrete successful one-section run. -/
theorem c10_batch_ids_distinct_witness :
    (([witnessDoc 0]).map (fun d => d.id)).Nodup :=
  c10_batch_ids_distinct (fun _ => Except.error ()) (fun _ => some "Hi. Bye.")
    (fun _ => "") (fun _ _ => Except.ok 0) "acct" [1] "text/plain" "a/b.txt" _
    (by decide)

/-- C1: two runs of the pipeline on byte-identical content with the same
document name (and the same external decoders), whatever the embedding
service does in each run, upload batches whose id sequences are identical,
and the id at batch position `i` is the name with `'/'` and `'.'` replaced
by `'_'` followed by `"-page-"` and the decimal rendering of `i`. -/
theorem c1_idempotent_ids {E A : Type} (pdfX : List Nat → Except E String)
    (utf8 : List Nat → Option String) (latin1 : List Nat → String)
    (svc1 svc2 : Nat → String → Except E A) (account : String)
    (content : List Nat) (ctype name : String)
    (docs1 docs2 : List (IndexDocument A))
    (h1 : (process_file_and_update_index pdfX utf8 latin1 svc1 account content ctype
      name).uploads = [docs1])
    (h2 : (process_file_and_update_index pdfX utf8 latin1 svc2 account content ctype
      name).uploads = [docs2]) :
    docs1.map (fun d => d.id) = docs2.map (fun d => d.id) ∧
    ∀ (i : Nat) (hi : i < (docs1.map (fun d => d.id)).length),
      (docs1.map (fun d => d.id)).get ⟨i, hi⟩
        = (filename_to_id name ++ "-page-") ++ decToString i := by
  rcases run_cases pdfX utf8 latin1 svc1 account content ctype name with
    hnil | ⟨text, embs, calls, att, _, hext, _, hce, heq⟩
  · rw [hnil] at h1; simp at h1
  · rcases run_cases pdfX utf8 latin1 svc2 account content ctype name with
      hnil2 | ⟨text2, embs2, calls2, att2, _, hext2, _, hce2, heq2⟩
    · rw [hnil2] at h2; simp at h2
    · rw [heq] at h1
      rw [heq2] at h2
      simp only [List.cons.injEq, and_true] at h1 h2
      have htt : text = text2 := Except.ok.inj (hext.symm.trans hext2)
      subst htt
      have hlen1 : embs.length = (split_text 2000 text).length := by
        have h3 := create_embeddings_ok_length svc1 _ _ _ _ hce
        simpa using h3
      have hlen2 : embs2.length = (split_text 2000 text).length := by
        have h3 := create_embeddings_ok_length svc2 _ _ _ _ hce2
        simpa using h3
      have hids1 : docs1.map (fun d => d.id)
          = (List.range (split_text 2000 text).length).map
              (fun i => (filename_to_id name ++ "-page-") ++ decToString i) := by
        rw [← h1, mkDocs_ids, hlen1, Nat.min_self]
      have hids2 : docs2.map (fun d => d.id)
          = (List.range (split_text 2000 text).length).map
              (fun i => (filename_to_id name ++ "-page-") ++ decToString i) := by
        rw [← h2, mkDocs_ids, hlen2, Nat.min_self]
      refine ⟨by rw [hids1, hids2], ?_⟩
      intro i hi
      rw [List.get_of_eq hids1 ⟨i, hi⟩]
      simp [List.get_eq_getElem, List.getElem_map, List.getElem_range]

/-- Witness for C1: two concrete runs on the same bytes and name whose
embedding services return different vectors still produce identical ids. -/
theorem c1_idempotent_ids_witness :
    ([witnessDoc 0]).map (fun d => d.id) = ([witnessDoc 1]).map (fun d => d.id) :=
  (c1_idempotent_ids (fun _ => Except.error ()) (fun _ => some "Hi. Bye.")
    (fun _ => "") (fun _ _ => Except.ok 0) (fun _ _ => Except.ok 1) "acct" [1]
    "text/plain" "a/b.txt" _ _ (by decide) (by decide)).1

/-- C2: for every run, if embedding generation succeeds the embedding list
has exactly one vector per section and the uploaded batch pairs each section
1:1 by position with its vector; if embedding generation fails the run
aborts (re-raising the error) before assembly and passes no batch, partial
or otherwise, to `upload_documents`. -/
theorem c2_embedding_invariant {E A : Type} (pdfX : List Nat → Except E String)
    (utf8 : List Nat → Option String) (latin1 : List Nat → String)
    (svc : Nat → String → Except E A) (account : String)
    (content : List Nat) (ctype name : String) :
    (∀ (sps : List SplitPage) (embs : List A) (calls att : Nat),
      (process_file_and_update_index pdfX utf8 latin1 svc account content ctype
        name).sections = some sps →
      create_embeddings svc (sps.map (fun sp => sp.text))
        = (Except.ok embs, calls, att) →
      embs.length = sps.length ∧
      (process_file_and_update_index pdfX utf8 latin1 svc account content ctype
        name).uploads = [mkDocs name account sps embs] ∧
      (mkDocs name account sps embs).length = sps.length ∧
      (∀ (i : Nat) (hd : i < (mkDocs name account sps embs).length)
          (hs : i < sps.length) (he : i < embs.length),
        ((mkDocs name account sps embs).get ⟨i, hd⟩).content
          = (sps.get ⟨i, hs⟩).text ∧
        ((mkDocs name account sps embs).get ⟨i, hd⟩).embedding
          = embs.get ⟨i, he⟩)) ∧
    (∀ (sps : List SplitPage) (e : E) (calls att : Nat),
      (process_file_and_update_index pdfX utf8 latin1 svc account content ctype
        name).sections = some sps →
      create_embeddings svc (sps.map (fun sp => sp.text))
        = (Except.error e, calls, att) →
      (process_file_and_update_index pdfX utf8 latin1 svc account content ctype
        name).result = Except.error e ∧
      (process_file_and_update_index pdfX utf8 latin1 svc account content ctype
        name).uploads = []) := by
  constructor
  · intro sps embs calls att hsec hce
    have hlen : embs.length = sps.length := by
      have h3 := create_embeddings_ok_length svc _ _ _ _ hce
      simpa using h3
    refine ⟨hlen,
      (run_embed_ok pdfX utf8 latin1 svc account content ctype name sps embs calls att
        hsec hce).2, ?_, ?_⟩
    · rw [mkDocs_length, hlen, Nat.min_self]
    · intro i hd hs he
      exact ⟨mkDocs_getElem_content name account sps embs i hd hs,
        mkDocs_getElem_embedding name account sps embs i hd he⟩
  · intro sps e calls att hsec hce
    exact run_embed_error pdfX utf8 latin1 svc account content ctype name sps e
      calls att hsec hce

/-- Witness for C2 on a concrete one-section run with a succeeding service:
one embedding per section. -/
theorem c2_embedding_invariant_witness :
    ([(0 : Nat)] : List Nat).length = ([⟨"Hi. Bye.", 0⟩] : List SplitPage).length :=
  ((c2_embedding_invariant (fun _ => Except.error ()) (fun _ => some "Hi. Bye.")
    (fun _ => "") (fun _ _ => Except.ok (0 : Nat)) "acct" [1] "text/plain"
    "a/b.txt").1 [⟨"Hi. Bye.", 0⟩] [0] 1 1 (by decide) (by decide)).1

/-- C8: empty input content or empty extracted text makes the run a
successful no-op — it returns normally having made no remote embedding call
and no upload call and yielding zero documents; and chunking never yields
zero sections (`split_text` never returns the empty list), so the third
early-exit condition of the claim cannot occur at all. -/
theorem c8_early_exit {E A : Type} (pdfX : List Nat → Except E String)
    (utf8 : List Nat → Option String) (latin1 : List Nat → String)
    (svc : Nat → String → Except E A) (account : String)
    (content : List Nat) (ctype name : String) :
    (content.isEmpty = true →
      (process_file_and_update_index pdfX utf8 latin1 svc account content ctype
        name).result = Except.ok PyValue.none ∧
      (process_file_and_update_index pdfX utf8 latin1 svc account content ctype
        name).embedAttempts = 0 ∧
      (process_file_and_update_index pdfX utf8 latin1 svc account content ctype
        name).serviceCalls = 0 ∧
      (process_file_and_update_index pdfX utf8 latin1 svc account content ctype
        name).uploads = []) ∧
    (∀ text, extract_text pdfX utf8 latin1 ⟨name, content, ctype⟩ = Except.ok text →
      text = "" →
      (process_file_and_update_index pdfX utf8 latin1 svc account content ctype
        name).result = Except.ok PyValue.none ∧
      (process_file_and_update_index pdfX utf8 latin1 svc account content ctype
        name).embedAttempts = 0 ∧
      (process_file_and_update_index pdfX utf8 latin1 svc account content ctype
        name).serviceCalls = 0 ∧
      (process_file_and_update_index pdfX utf8 latin1 svc account content ctype
        name).uploads = []) ∧
    (∀ u : String, split_text 2000 u ≠ []) := by
  refine ⟨?_, ?_, fun u => split_text_ne_nil 2000 u⟩
  · intro h
    rw [run_empty_content pdfX utf8 latin1 svc account content ctype name h]
    exact ⟨rfl, rfl, rfl, rfl⟩
  · intro text hext htext
    exact run_empty_text pdfX utf8 latin1 svc account content ctype name text hext htext

/-- Witness for C8 on empty byte content. -/
theorem c8_early_exit_witness :
    (process_file_and_update_index (fun _ => Except.error ())
      (fun _ => some "Hi. Bye.") (fun _ => "") (fun _ _ => Except.ok (0 : Nat))
      "acct" [] "text/plain" "a/b.txt").serviceCalls = 0 ∧
    (process_file_and_update_index (fun _ => Except.error ())
      (fun _ => some "Hi. Bye.") (fun _ => "") (fun _ _ => Except.ok (0 : Nat))
      "acct" [] "text/plain" "a/b.txt").uploads = [] :=
  ((c8_early_exit (fun _ => Except.error ()) (fun _ => some "Hi. Bye.")
    (fun _ => "") (fun _ _ => Except.ok (0 : Nat)) "acct" [] "text/plain"
    "a/b.txt").1 (by decide)).2.2

/-- C9 (counterexample): a concrete run that uploads a batch of one document
returns `None`, not the count of documents uploaded. -/
theorem c9_returns_none_counterexample :
    (process_file_and_update_index (fun _ => Except.error ())
      (fun _ => some "Hi. Bye.") (fun _ => "") (fun _ _ => Except.ok (0 : Nat))
      "acct" [1] "text/plain" "a/b.txt").result = Except.ok PyValue.none ∧
    ((process_file_and_update_index (fun _ => Except.error ())
      (fun _ => some "Hi. Bye.") (fun _ => "") (fun _ _ => Except.ok (0 : Nat))
      "acct" [1] "text/plain" "a/b.txt").uploads.map (fun b => b.length)) = [1] ∧
    (process_file_and_update_index (fun _ => Except.error ())
      (fun _ => some "Hi. Bye.") (fun _ => "") (fun _ _ => Except.ok (0 : Nat))
      "acct" [1] "text/plain" "a/b.txt").result ≠ Except.ok (PyValue.int 1) := by
  refine ⟨by decide, by decide, by decide⟩

/-- C9 (amended): `process_file_and_update_index` returns `None` whenever it
returns at all (the count of documents uploaded is logged, not returned);
the batch passed to `upload_documents` has one document per section. -/
theorem c9_run_returns_none {E A : Type} (pdfX : List Nat → Except E String)
    (utf8 : List Nat → Option String) (latin1 : List Nat → String)
    (svc : Nat → String → Except E A) (account : String)
    (content : List Nat) (ctype name : String) :
    (∀ v, (process_file_and_update_index pdfX utf8 latin1 svc account content ctype
        name).result = Except.ok v → v = PyValue.none) ∧
    (∀ (docs : List (IndexDocument A)) (sps : List SplitPage),
      (process_file_and_update_index pdfX utf8 latin1 svc account content ctype
        name).uploads = [docs] →
      (process_file_and_update_index pdfX utf8 latin1 svc account content ctype
        name).sections = some sps →
      docs.length = sps.length) := by
  constructor
  · intro v hv
    by_cases hemp : content.isEmpty = true
    · rw [run_empty_content pdfX utf8 latin1 svc account content ctype name hemp] at hv
      exact (Except.ok.inj hv).symm
    · rcases hext : extract_text pdfX utf8 latin1 ⟨name, content, ctype⟩ with e | text
      · simp [process_file_and_update_index, hemp, hext] at hv
      · by_cases htext : text = ""
        · simp [process_file_and_update_index, hemp, hext, htext] at hv
          exact hv.symm
        · rcases hce : create_embeddings svc
              ((split_text 2000 text).map (fun sp => sp.text)) with ⟨r, calls, att⟩
          cases r with
          | error e =>
            simp [process_file_and_update_index, hemp, hext, htext, hce] at hv
          | ok embs =>
            simp [process_file_and_update_index, hemp, hext, htext, hce] at hv
            exact hv.symm
  · intro docs sps hup hsec
    rcases run_cases pdfX utf8 latin1 svc account content ctype name with
      hnil | ⟨text, embs, calls, att, _, _, _, hce, heq⟩
    · rw [hnil] at hup; simp at hup
    · rw [heq] at hup hsec
      simp only [List.cons.injEq, and_true] at hup
      simp only [Option.some.injEq] at hsec
      rw [← hup, ← hsec]
      have hlen : embs.length = (split_text 2000 text).length := by
        have h3 := create_embeddings_ok_length svc _ _ _ _ hce
        simpa using h3
      rw [mkDocs_length, hlen, Nat.min_self]

/-- Witness for C9 (amended) on a concrete successful run. -/
theorem c9_run_returns_none_witness :
    ([witnessDoc 0]).length = ([⟨"Hi. Bye.", 0⟩] : List SplitPage).length :=
  (c9_run_returns_none (fun _ => Except.error ()) (fun _ => some "Hi. Bye.")
    (fun _ => "") (fun _ _ => Except.ok (0 : Nat)) "acct" [1] "text/plain"
    "a/b.txt").2 _ _ (by decide) (by decide)

/-- C7 (counterexample): the retry decorator wraps the whole batch, not each
section.  With a service stream that alternates success and failure, each
section individually succeeds within its first three calls — the per-section
reading of the claim (`cePerSection`, a 3-attempt budget per section)
returns embeddings for both sections — yet the code's whole-batch retry
(`create_embeddings`) exhausts its three shared attempts and fails. -/
theorem c7_retry_counterexample :
    (create_embeddings (fun n _ => if n % 2 = 0 then Except.ok (0 : Nat)
        else Except.error ()) ["One.", "Two."]).1 = Except.error () ∧
    (cePerSection (fun n _ => if n % 2 = 0 then Except.ok (0 : Nat)
        else Except.error ()) 8000 0 ["One.", "Two."]).1
      = Except.ok [0, 0] := by
  constructor <;> decide

/-- C7 (amended): the retry makes at most 3 attempts of the whole embedding
batch (a budget shared across sections, so at most `3 * #sections` remote
calls in all, and each section is called at most once per attempt); the
modelled backoff starts at 4 seconds and is capped at 10; extraction and
chunking are outside the retry — they do not depend on the embedding service
at all; and when the retries are exhausted the error propagates and the run
uploads nothing. -/
theorem c7_retry_policy {E A : Type} (pdfX : List Nat → Except E String)
    (utf8 : List Nat → Option String) (latin1 : List Nat → String)
    (svc svcB : Nat → String → Except E A) (account : String)
    (content : List Nat) (ctype name : String) (ts : List String) :
    (create_embeddings svc ts).2.2 ≤ 3 ∧
    (create_embeddings svc ts).2.1 ≤ 3 * ts.length ∧
    ((process_file_and_update_index pdfX utf8 latin1 svc account content ctype
        name).extractedText
      = (process_file_and_update_index pdfX utf8 latin1 svcB account content ctype
        name).extractedText ∧
      (process_file_and_update_index pdfX utf8 latin1 svc account content ctype
        name).sections
      = (process_file_and_update_index pdfX utf8 latin1 svcB account content ctype
        name).sections) ∧
    (∀ (sps : List SplitPage) (e : E) (calls att : Nat),
      (process_file_and_update_index pdfX utf8 latin1 svc account content ctype
        name).sections = some sps →
      create_embeddings svc (sps.map (fun sp => sp.text))
        = (Except.error e, calls, att) →
      (process_file_and_update_index pdfX utf8 latin1 svc account content ctype
        name).result = Except.error e ∧
      (process_file_and_update_index pdfX utf8 latin1 svc account content ctype
        name).uploads = []) ∧
    tenacityWait 1 = 4 ∧ (∀ k, tenacityWait k ≤ 10) := by
  refine ⟨create_embeddings_attempts_le svc ts, create_embeddings_calls_le svc ts,
    run_pre_stages_svc_independent pdfX utf8 latin1 svc svcB account content ctype name,
    ?_, by decide, ?_⟩
  · intro sps e calls att hsec hce
    exact run_embed_error pdfX utf8 latin1 svc account content ctype name sps e
      calls att hsec hce
  · intro k
    simp only [tenacityWait]
    omega

/-- Witness for C7 (amended): a run whose embedding service always fails
aborts with the propagated error and uploads nothing. -/
theorem c7_retry_policy_witness :
    (process_file_and_update_index (fun _ => Except.error ())
      (fun _ => some "Hi. Bye.") (fun _ => "")
      ((fun _ _ => Except.error ()) : Nat → String → Except Unit Nat)
      "acct" [1] "text/plain" "a/b.txt").result = Except.error () ∧
    (process_file_and_update_index (fun _ => Except.error ())
      (fun _ => some "Hi. Bye.") (fun _ => "")
      ((fun _ _ => Except.error ()) : Nat → String → Except Unit Nat)
      "acct" [1] "text/plain" "a/b.txt").uploads
      = ([] : List (List (IndexDocument Nat))) :=
  (c7_retry_policy (fun _ => Except.error ()) (fun _ => some "Hi. Bye.")
    (fun _ => "") ((fun _ _ => Except.error ()) : Nat → String → Except Unit Nat)
    ((fun _ _ => Except.error ()) : Nat → String → Except Unit Nat)
    "acct" [1] "text/plain" "a/b.txt" []).2.2.2.1 [⟨"Hi. Bye.", 0⟩] () 3 3
    (by decide) (by decide)

end AiSearch
